import Mathlib

/-!
Shallow embedding of the helper module of an i18n plugin
(file src/helpers/utils.js) and verification of its specified behavior.

Modelling conventions:
* JavaScript values that flow through the helpers are modelled by the
  inductive type JsVal (undefined, null, booleans, strings, objects as
  association lists).  Numbers never occur in the helpers and are omitted.
* A thrown TypeError (property access on undefined or null, or calling a
  string method on a non-string) is modelled by Except JsErr; JsErr.typeError
  is the only error.  Code that cannot throw is written as a plain function.
* The regular expressions built by the module are built from configuration
  strings by literal concatenation; the embedding implements the matching
  semantics of exactly those pattern shapes (leftmost match, alternation in
  list order, greedy optional group, case-insensitive comparison by
  Char.toLower), treating separator, suffix, page-directory and locale codes
  as literal text.
-/

/-- The universe of JavaScript values reaching the helper functions. -/
inductive JsVal where
  | undefined : JsVal
  | null : JsVal
  | bool : Bool → JsVal
  | str : String → JsVal
  | obj : List (String × JsVal) → JsVal

/-- The only kind of exception the helpers can raise: a TypeError from a
property access on undefined or null, or a method call on a value that does
not have that method. -/
inductive JsErr where
  | typeError : JsErr
  deriving DecidableEq, Repr

/-- JavaScript truthiness for the modelled value universe. -/
def jsTruthy : JsVal → Bool
  | .undefined => false
  | .null => false
  | .bool b => b
  | .str s => !(s == "")
  | .obj _ => true

/-- JavaScript ToPropertyKey / default ToString on the modelled values:
strings are used as is, other values are coerced the way JavaScript
stringifies them when used as a property key. -/
def toPropertyKey : JsVal → String
  | .undefined => "undefined"
  | .null => "null"
  | .bool true => "true"
  | .bool false => "false"
  | .str s => s
  | .obj _ => "[object Object]"

/-- First-match lookup in an association list with string keys, mirroring
JavaScript own-property lookup on the modelled objects. -/
def lookupStr {α : Type} : List (String × α) → String → Option α
  | [], _ => none
  | (k, v) :: t, key => if k = key then some v else lookupStr t key

/-- Property access on a value that is not undefined or null: objects look
the key up, primitives have none of the accessed properties and yield
undefined. -/
def getProp : JsVal → String → JsVal
  | .obj fs, k => (lookupStr fs k).getD .undefined
  | _, _ => .undefined

/-- Property access as JavaScript evaluates it: reading a property of
undefined or null throws a TypeError, every other receiver yields
getProp. -/
def jsGetField (v : JsVal) (k : String) : Except JsErr JsVal :=
  match v with
  | .undefined => .error .typeError
  | .null => .error .typeError
  | v => .ok (getProp v k)

/-- Strict equality (===) on the modelled values.  Two object values are
never identical here because the compared operands always come from
unrelated configuration pieces; on primitives strict equality is structural
equality. -/
def jsStrictEq : JsVal → JsVal → Bool
  | .undefined, .undefined => true
  | .null, .null => true
  | .bool a, .bool b => a == b
  | .str a, .str b => a == b
  | _, _ => false

/-- Test for the value being exactly the boolean false, the strict
comparison of lines 44 and 53 of utils.js. -/
def isFalseVal : JsVal → Bool
  | .bool false => true
  | _ => false

/-- Test whether a value is a string, the typeof checks of utils.js. -/
def isStrVal : JsVal → Bool
  | .str _ => true
  | _ => false

/-- Test whether a value is neither undefined nor null, so that property
access on it cannot throw. -/
def notNullish : JsVal → Bool
  | .undefined => false
  | .null => false
  | _ => true

/-- The shape the data model gives the elements of a locale list: a bare
code string or a locale record. -/
def strOrObjVal : JsVal → Bool
  | .str _ => true
  | .obj _ => true
  | _ => false

/-- Test for the value being exactly null, the strict comparisons of lines
145 and 148 of utils.js. -/
def isNullVal : JsVal → Bool
  | .null => true
  | _ => false

/-- The parameter defaults of syncVuex (line 143 of utils.js): a missing
(undefined) argument becomes null. -/
def argOrNull : JsVal → JsVal
  | .undefined => .null
  | v => v

/-- The element-wise map of line 18 of utils.js,
locales.map(locale => locale[LOCALE_CODE_KEY]), monadified because the
property access throws on a null or undefined element. -/
def mapCodeEx : List JsVal → Except JsErr (List JsVal)
  | [] => .ok []
  | l :: t =>
    match jsGetField l "code" with
    | .error e => .error e
    | .ok c =>
      match mapCodeEx t with
      | .error e => .error e
      | .ok cs => .ok (c :: cs)

/-- getLocaleCodes of utils.js (lines 10 to 22): an empty list yields an
empty list; when the first element is a string the whole list is returned
unchanged; when the code field of the first element is a string every
element is mapped to its code field; otherwise the result is empty.  The
parameter default of the source (locales = []) is the empty list. -/
def getLocaleCodes (locales : List JsVal) : Except JsErr (List JsVal) :=
  match locales with
  | [] => .ok []
  | first :: _ =>
    match first with
    | .str _ => .ok locales
    | _ =>
      match jsGetField first "code" with
      | .error e => .error e
      | .ok c =>
        match c with
        | .str _ => mapCodeEx locales
        | _ => .ok []

example : getLocaleCodes [] = .ok [] := rfl
example : getLocaleCodes [.str "en", .str "fr"] = .ok [.str "en", .str "fr"] := rfl
example : getLocaleCodes [.obj [("code", .str "en")], .obj [("code", .str "fr")]]
    = .ok [.str "en", .str "fr"] := rfl
example : getLocaleCodes [.obj [("domain", .str "x")]] = .ok [] := rfl
example : getLocaleCodes [.null] = .error .typeError := rfl

/-- A route descriptor: an object with the three fields the module reads.
A field that the route does not carry is undefined. -/
structure Route where
  name : JsVal
  path : JsVal
  chunkName : JsVal

/-- Case-insensitive literal match of a pattern at the head of a string
(both as character lists): on success, the remaining characters after the
consumed pattern are returned.  Comparison lowers both characters, the
behavior of the i regular-expression flag on the ASCII text the module
handles. -/
def matchLit : List Char → List Char → Option (List Char)
  | [], s => some s
  | _ :: _, [] => none
  | p :: ps, c :: cs => if p.toLower = c.toLower then matchLit ps cs else none

/-- String.prototype.replace with a non-global case-insensitive literal
pattern: remove the first (leftmost) occurrence of the pattern, keep
everything else.  When the pattern occurs nowhere the string is
unchanged. -/
def replaceFirstCI : List Char → List Char → List Char
  | s, pat =>
    match matchLit pat s with
    | some rest => rest
    | none =>
      match s with
      | [] => []
      | c :: t => c :: replaceFirstCI t pat

/-- Derivation of the page lookup key, lines 40 and 41 of utils.js: reading
route.chunkName on an undefined route throws; a truthy chunkName must be a
string and has the first occurrence of the pages directory followed by a
slash removed (the regular expression new RegExp(pagesDir + slash, i));
otherwise the key is route.name. -/
def chunkKeyOf (route : Option Route) (pagesDir : String) : Except JsErr JsVal :=
  match route with
  | none => .error .typeError
  | some r =>
    if jsTruthy r.chunkName then
      match r.chunkName with
      | .str s => .ok (.str (String.mk (replaceFirstCI s.data (pagesDir ++ "/").data)))
      | _ => .error .typeError
    else .ok r.name

/-- The result of getPageOptions: the literal false (routing disabled for
the page) or an object carrying the enabled locales and the custom paths
object. -/
inductive PageOptions where
  | disabled : PageOptions
  | options : List JsVal → List (String × String) → PageOptions

/-- JavaScript property assignment on the modelled paths object: an
existing binding of the key is overwritten in place, a new key is appended
at the end. -/
def objSet : List (String × String) → String → String → List (String × String)
  | [], k, v => [(k, v)]
  | (k0, v0) :: t, k, v =>
    if k0 = k then (k, v) :: t else (k0, v0) :: objSet t k v

/-- The per-locale path choice of lines 58 to 64 of utils.js: the own entry
of the locale when it is a string, else the entry of the default locale
when that is a string, else no path. -/
def pathVal (pageOptions : JsVal) (defaultLocale : String) (k : String) : Option String :=
  match getProp pageOptions k with
  | .str s => some s
  | _ =>
    match getProp pageOptions defaultLocale with
    | .str d => some d
    | _ => none

/-- One iteration of the forEach of lines 56 to 65 of utils.js: assign the
chosen custom path of the locale when one exists, leave the paths object
alone otherwise. -/
def pathsStep (pageOptions : JsVal) (defaultLocale : String)
    (acc : List (String × String)) (l : JsVal) : List (String × String) :=
  match pathVal pageOptions defaultLocale (toPropertyKey l) with
  | some v => objSet acc (toPropertyKey l) v
  | none => acc

/-- The forEach of lines 56 to 65 of utils.js, building the paths object by
assigning, for each remaining locale in order, its chosen custom path if
one exists. -/
def buildPaths (pageOptions : JsVal) (defaultLocale : String) (locs : List JsVal) :
    List (String × String) :=
  locs.foldl (pathsStep pageOptions defaultLocale) []

/-- getPageOptions of utils.js (lines 35 to 68).  The locale codes are
computed first (line 37), then the lookup key (lines 40 and 41, throwing on
an undefined route), then the lookup pages[chunkName] (line 42, throwing on
an undefined pages map).  An entry that is exactly false disables routing;
a missing or falsy entry yields all codes and no custom paths; otherwise
the locales whose entry is exactly false are filtered out and the paths
object is built over the remaining locales. -/
def getPageOptions (route : Option Route) (pages : Option (List (String × JsVal)))
    (locales : List JsVal) (pagesDir : String) (defaultLocale : String) :
    Except JsErr PageOptions :=
  match getLocaleCodes locales with
  | .error e => .error e
  | .ok codes =>
    match chunkKeyOf route pagesDir with
    | .error e => .error e
    | .ok chunkName =>
      match pages with
      | none => .error .typeError
      | some pagesObj =>
        let pageOptions := getProp (.obj pagesObj) (toPropertyKey chunkName)
        if isFalseVal pageOptions then .ok .disabled
        else if !(jsTruthy pageOptions) then .ok (.options codes [])
        else
          let locs := codes.filter
            (fun l => !(isFalseVal (getProp pageOptions (toPropertyKey l))))
          .ok (.options locs (buildPaths pageOptions defaultLocale locs))

example :
    getPageOptions (some ⟨.str "about", .undefined, .undefined⟩)
      (some [("about", .obj [("en", .str "/about-us"), ("fr", .bool false)])])
      [.str "en", .str "fr"] "pages" "en"
    = .ok (.options [.str "en"] [("en", "/about-us")]) := rfl

example :
    getPageOptions (some ⟨.str "about", .undefined, .undefined⟩) (some [("about", .bool false)])
      [.str "en", .str "fr"] "pages" "en" = .ok .disabled := rfl

example :
    getPageOptions (some ⟨.str "about", .undefined, .undefined⟩) (some [])
      [.str "en", .str "fr"] "pages" "en" = .ok (.options [.str "en", .str "fr"] []) := rfl

example :
    getPageOptions none (some []) [.str "en"] "pages" "en" = .error .typeError := rfl

example :
    getPageOptions (some ⟨.undefined, .undefined, .str "pages/about"⟩)
      (some [("about", .bool false)]) [] "pages" "en" = .ok .disabled := rfl

/-- Array.prototype.join coercion of one element: null and undefined join
as empty text, every other value joins as its string coercion. -/
def joinElemStr : JsVal → String
  | .undefined => ""
  | .null => ""
  | v => toPropertyKey v

/-- The alternatives of the capture group built on line 82 of utils.js,
the codes joined with the bar character and wrapped in parentheses.  An
empty code list yields the group of the empty pattern, whose single
alternative is the empty string; otherwise each code contributes its join
coercion as one literal alternative, in list order. -/
def altStrings (codes : List JsVal) : List String :=
  match codes with
  | [] => [""]
  | _ => codes.map joinElemStr

/-- Backtracking over the alternatives of the name pattern at a fixed
position: the remainder r1 follows the already consumed separator, ss is
the text of the optional group (separator followed by the default suffix).
An alternative succeeds when, after consuming it, either the optional group
consumes exactly the rest of the string (the greedy branch) or the rest is
already empty (the empty branch); the captured text is the consumed slice
of the subject, in its original case. -/
def tryAltsName (r1 : List Char) (ss : List Char) : List (List Char) → Option (List Char)
  | [] => none
  | a :: rest =>
    match matchLit a r1 with
    | some r2 =>
      if (match matchLit ss r2 with | some [] => true | _ => false) || r2.isEmpty then
        some (r1.take a.length)
      else tryAltsName r1 ss rest
    | none => tryAltsName r1 ss rest

/-- Leftmost search for the name pattern of line 86 of utils.js: at each
position the separator, one alternative and the optional default-suffix
group anchored at the end must match; the first position that admits a
match wins and the captured alternative slice is returned. -/
def scanName (sep : List Char) (ss : List Char) (alts : List (List Char)) :
    List Char → Option (List Char)
  | [] =>
    (match matchLit sep [] with
     | some r1 => tryAltsName r1 ss alts
     | none => none)
  | c :: t =>
    match
      (match matchLit sep (c :: t) with
       | some r1 => tryAltsName r1 ss alts
       | none => none)
    with
    | some cap => some cap
    | none => scanName sep ss alts t

/-- Backtracking over the alternatives of the path pattern: the remainder
r1 follows the consumed leading slash; an alternative succeeds when a
slash follows it, and the captured slice is returned. -/
def tryAltsPath (r1 : List Char) : List (List Char) → Option (List Char)
  | [] => none
  | a :: rest =>
    match matchLit a r1 with
    | some r2 =>
      if (matchLit ['/'] r2).isSome then some (r1.take a.length)
      else tryAltsPath r1 rest
    | none => tryAltsPath r1 rest

/-- The path pattern of line 93 of utils.js, anchored at the start of the
string: a slash, one alternative and a slash. -/
def matchPath (alts : List (List Char)) (s : List Char) : Option (List Char) :=
  match matchLit ['/'] s with
  | some r1 => tryAltsPath r1 alts
  | none => none

/-- getLocaleFromRoute of utils.js (lines 80 to 100).  The source defaults
are an empty object for the route and empty strings and an empty list for
the remaining parameters; a missing route argument therefore degrades to a
route with no fields.  The locale codes are computed first (line 81, and
can throw); a truthy route name is matched against the name pattern, else a
truthy route path against the path pattern; a match returns its capture,
anything else returns null.  A truthy name or path that is not a string
has no match method and throws. -/
def getLocaleFromRoute (route : Option Route) (routesNameSeparator : String)
    (defaultLocaleRouteNameSuffix : String) (locales : List JsVal) :
    Except JsErr JsVal :=
  let r := route.getD ⟨.undefined, .undefined, .undefined⟩
  match getLocaleCodes locales with
  | .error e => .error e
  | .ok codes =>
    let alts := (altStrings codes).map String.data
    let ss := (routesNameSeparator ++ defaultLocaleRouteNameSuffix).data
    if jsTruthy r.name then
      match r.name with
      | .str name =>
        match scanName routesNameSeparator.data ss alts name.data with
        | some cap => .ok (.str (String.mk cap))
        | none => .ok .null
      | _ => .error .typeError
    else if jsTruthy r.path then
      match r.path with
      | .str path =>
        match matchPath alts path.data with
        | some cap => .ok (.str (String.mk cap))
        | none => .ok .null
      | _ => .error .typeError
    else .ok .null

example :
    getLocaleFromRoute (some ⟨.str "about-fr", .undefined, .undefined⟩) "-" "default"
      [.str "en", .str "fr"] = .ok (.str "fr") := rfl

example :
    getLocaleFromRoute (some ⟨.str "about-en-default", .undefined, .undefined⟩) "-" "default"
      [.str "en", .str "fr"] = .ok (.str "en") := rfl

example :
    getLocaleFromRoute (some ⟨.undefined, .str "/fr/about", .undefined⟩) "-" "default"
      [.str "en", .str "fr"] = .ok (.str "fr") := rfl

example :
    getLocaleFromRoute (some ⟨.undefined, .undefined, .undefined⟩) "-" "default" [.str "en", .str "fr"]
      = .ok .null := rfl

example :
    getLocaleFromRoute (some ⟨.str "about-FR", .undefined, .undefined⟩) "-" "default"
      [.str "en", .str "fr"] = .ok (.str "FR") := rfl

example :
    getLocaleFromRoute (some ⟨.str "about-", .undefined, .undefined⟩) "-" "default" []
      = .ok (.str "") := rfl

example :
    getLocaleFromRoute none "" "" [] = .ok .null := rfl

/-- The ambient context read by getForwarded, getHostname and
getLocaleDomain: the execution mode (process.browser), the current
location (window.location.href), the two request headers, the
forwarded-host setting (app.i18n.forwardedHost) and the configured locale
list (app.i18n.locales). -/
structure Ctx where
  browser : Bool
  windowHref : String
  xForwardedHost : JsVal
  host : JsVal
  forwardedHost : Bool
  locales : List JsVal

/-- String.prototype.split with a one-character separator, on character
lists: the pieces between the separator occurrences, in order, with empty
pieces kept. -/
def splitOnChar (sep : Char) : List Char → List (List Char)
  | [] => [[]]
  | c :: t =>
    let r := splitOnChar sep t
    if c = sep then [] :: r
    else
      match r with
      | h :: t2 => (c :: h) :: t2
      | [] => [[c]]

/-- The URL authority as the module computes it in a browser:
window.location.href split on slashes, third piece, undefined when the
split has fewer than three pieces. -/
def hrefHost (href : String) : JsVal :=
  match (splitOnChar (Char.ofNat 47) href.data)[2]? with
  | some s => .str (String.mk s)
  | none => .undefined

/-- getForwarded of utils.js (lines 106 to 108): in a browser the URL
authority, on the server the x-forwarded-host header when truthy, else the
host header. -/
def getForwarded (c : Ctx) : JsVal :=
  if c.browser then hrefHost c.windowHref
  else if jsTruthy c.xForwardedHost then c.xForwardedHost
  else c.host

/-- getHostname of utils.js (lines 116 to 118): in a browser the URL
authority, on the server the host header. -/
def getHostname (c : Ctx) : JsVal :=
  if c.browser then hrefHost c.windowHref else c.host

/-- Array.prototype.find of line 129 of utils.js: the first locale record
whose domain field is strictly equal to the hostname.  The property access
inside the callback throws on a null or undefined element. -/
def findDomain (hostname : JsVal) : List JsVal → Except JsErr (Option JsVal)
  | [] => .ok none
  | l :: t =>
    match jsGetField l "domain" with
    | .error e => .error e
    | .ok d => if jsStrictEq d hostname then .ok (some l) else findDomain hostname t

/-- getLocaleDomain of utils.js (lines 126 to 135): choose the hostname
with getForwarded when the forwarded-host setting is enabled, else with
getHostname; on a truthy hostname return the code field of the first
locale record whose domain field equals it, and null when none does or the
hostname is falsy. -/
def getLocaleDomain (c : Ctx) : Except JsErr JsVal :=
  let hostname := if c.forwardedHost then getForwarded c else getHostname c
  if jsTruthy hostname then
    match findDomain hostname c.locales with
    | .error e => .error e
    | .ok (some localeDomain) => jsGetField localeDomain "code"
    | .ok none => .ok .null
  else .ok .null

example :
    getLocaleDomain
      ⟨false, "", .undefined, .str "fr.example.com", false,
        [.obj [("code", .str "en"), ("domain", .str "en.example.com")],
         .obj [("code", .str "fr"), ("domain", .str "fr.example.com")]]⟩
    = .ok (.str "fr") := rfl

example :
    getLocaleDomain
      ⟨false, "", .undefined, .undefined, false,
        [.obj [("code", .str "en"), ("domain", .str "en.example.com")]]⟩
    = .ok .null := rfl

example :
    getLocaleDomain
      ⟨true, "https://fr.example.com/about", .undefined, .undefined, false,
        [.obj [("code", .str "fr"), ("domain", .str "fr.example.com")]]⟩
    = .ok (.str "fr") := rfl

/-- The vuex configuration object read by syncVuex: the store module name
and the two sync flags. -/
structure VuexCfg where
  moduleName : String
  syncLocale : Bool
  syncMessages : Bool

/-- syncVuex of utils.js (lines 143 to 152), with the asynchronous
dispatches made explicit: the result records the dispatch calls actually
issued, in order, and the rejection that ended the run when one did.  The
parameter defaults of the source replace a missing (undefined) locale or
messages argument by null.  Nothing is dispatched unless both the vuex
configuration and the store are present; the setLocale dispatch is issued
only for a non-null locale with locale sync enabled, the setMessages
dispatch only for non-null messages with message sync enabled, and a
rejection of the first dispatch ends the run before the second is
attempted. -/
def syncVuex (ε : Type) (vuex : Option VuexCfg) (store : Bool)
    (dispatch : String → JsVal → Except ε Unit)
    (localeArg : JsVal) (messagesArg : JsVal) :
    List (String × JsVal) × Option ε :=
  match vuex, store with
  | some v, true =>
    let locale := argOrNull localeArg
    let messages := argOrNull messagesArg
    if !(isNullVal locale) && v.syncLocale then
      match dispatch (v.moduleName ++ "/setLocale") locale with
      | .error e => ([(v.moduleName ++ "/setLocale", locale)], some e)
      | .ok _ =>
        if !(isNullVal messages) && v.syncMessages then
          match dispatch (v.moduleName ++ "/setMessages") messages with
          | .error e => ([(v.moduleName ++ "/setLocale", locale),
                          (v.moduleName ++ "/setMessages", messages)], some e)
          | .ok _ => ([(v.moduleName ++ "/setLocale", locale),
                       (v.moduleName ++ "/setMessages", messages)], none)
        else ([(v.moduleName ++ "/setLocale", locale)], none)
    else
      if !(isNullVal messages) && v.syncMessages then
        match dispatch (v.moduleName ++ "/setMessages") messages with
        | .error e => ([(v.moduleName ++ "/setMessages", messages)], some e)
        | .ok _ => ([(v.moduleName ++ "/setMessages", messages)], none)
      else ([], none)
  | _, _ => ([], none)

example :
    syncVuex String (some ⟨"i18n", false, false⟩) true (fun _ _ => .ok ())
      (.str "fr") (.obj [])
    = ([], none) := rfl

example :
    syncVuex String (some ⟨"i18n", true, true⟩) true (fun _ _ => .ok ())
      (.str "fr") (.obj [])
    = ([("i18n/setLocale", .str "fr"), ("i18n/setMessages", .obj [])], none) := rfl

/-- Looking a key up after a property assignment: the assigned key now
yields the assigned value, every other key is untouched. -/
theorem lookupStr_objSet (acc : List (String × String)) (k v k2 : String) :
    lookupStr (objSet acc k v) k2 = if k = k2 then some v else lookupStr acc k2 := by
  induction acc with
  | nil => simp [objSet, lookupStr]
  | cons h t ih =>
    obtain ⟨k0, v0⟩ := h
    by_cases hk : k0 = k
    · subst hk
      simp only [objSet, if_pos rfl, lookupStr]
      by_cases h2 : k0 = k2 <;> simp [h2]
    · simp only [objSet, if_neg hk, lookupStr, ih]
      by_cases h2 : k0 = k2
      · subst h2
        simp [if_neg (Ne.symm hk)]
      · simp [if_neg h2]

/-- Every binding of the paths object after an assignment is the new
binding or one of the old ones. -/
theorem mem_objSet (acc : List (String × String)) (k v : String)
    (p : String × String) (hp : p ∈ objSet acc k v) : p = (k, v) ∨ p ∈ acc := by
  induction acc with
  | nil =>
    simp [objSet] at hp
    exact Or.inl hp
  | cons h t ih =>
    obtain ⟨k0, v0⟩ := h
    by_cases hk : k0 = k
    · subst hk
      simp [objSet] at hp
      rcases hp with hp | hp
      · exact Or.inl (by simp [hp])
      · exact Or.inr (by simp [hp])
    · simp only [objSet, if_neg hk, List.mem_cons] at hp
      rcases hp with hp | hp
      · exact Or.inr (by simp [hp])
      · rcases ih hp with hp | hp
        · exact Or.inl hp
        · exact Or.inr (by simp [hp])

/-- Looking a key up in the paths object built by the forEach loop over a
suffix of the locale list, with the bindings made so far as accumulator:
a key written by the loop holds its chosen path, any other key keeps its
accumulated binding. -/
theorem foldl_pathsStep_lookup (po : JsVal) (dl : String) (locs : List JsVal)
    (acc : List (String × String)) (s : String) :
    lookupStr (locs.foldl (pathsStep po dl) acc) s =
      if (locs.any fun l => toPropertyKey l == s) && (pathVal po dl s).isSome
      then pathVal po dl s
      else lookupStr acc s := by
  induction locs generalizing acc with
  | nil => simp
  | cons l t ih =>
    simp only [List.foldl_cons, ih, List.any_cons]
    by_cases hk : toPropertyKey l = s
    · subst hk
      by_cases ht : (t.any fun x => toPropertyKey x == toPropertyKey l) = true
      · cases hv : pathVal po dl (toPropertyKey l) <;>
          simp [pathsStep, hv, ht, lookupStr_objSet]
      · cases hv : pathVal po dl (toPropertyKey l) <;>
          simp [pathsStep, hv, ht, lookupStr_objSet]
    · have hbeq : (toPropertyKey l == s) = false := beq_false_of_ne hk
      cases hv : pathVal po dl (toPropertyKey l) <;>
        simp [pathsStep, hv, hbeq, hk, lookupStr_objSet]

/-- Looking a key up in the finished paths object: a key of one of the
looped-over locales holds its chosen path, every other key is absent. -/
theorem buildPaths_lookup (po : JsVal) (dl : String) (locs : List JsVal) (s : String) :
    lookupStr (buildPaths po dl locs) s =
      if locs.any fun l => toPropertyKey l == s then pathVal po dl s else none := by
  rw [buildPaths, foldl_pathsStep_lookup]
  cases hv : pathVal po dl s with
  | some v =>
    simp [hv, lookupStr]
  | none =>
    simp [hv, lookupStr]

/-- Every binding of the paths object built over a suffix of the locale
list comes from the accumulator or from one of the looped-over locales. -/
theorem mem_foldl_pathsStep (po : JsVal) (dl : String) (locs : List JsVal)
    (acc : List (String × String)) (p : String × String)
    (hp : p ∈ locs.foldl (pathsStep po dl) acc) :
    p ∈ acc ∨ ∃ l ∈ locs, toPropertyKey l = p.1 := by
  induction locs generalizing acc with
  | nil =>
    simp at hp
    exact Or.inl hp
  | cons l t ih =>
    simp only [List.foldl_cons] at hp
    rcases ih (pathsStep po dl acc l) hp with h | h
    · unfold pathsStep at h
      rcases hstep : pathVal po dl (toPropertyKey l) with _ | v
      · rw [hstep] at h
        exact Or.inl h
      · rw [hstep] at h
        rcases mem_objSet _ _ _ _ h with h | h
        · exact Or.inr ⟨l, by simp, by simp [h]⟩
        · exact Or.inl h
    · obtain ⟨l2, hl2, hkey⟩ := h
      exact Or.inr ⟨l2, by simp [hl2], hkey⟩

/-- Every binding of the finished paths object carries the key of one of
the looped-over locales. -/
theorem mem_buildPaths (po : JsVal) (dl : String) (locs : List JsVal)
    (p : String × String) (hp : p ∈ buildPaths po dl locs) :
    ∃ l ∈ locs, toPropertyKey l = p.1 := by
  rcases mem_foldl_pathsStep po dl locs [] p hp with h | h
  · simp at h
  · exact h

/-- A successful literal match consumes exactly the pattern length, the
consumed slice lowers to the lowered pattern, and the returned remainder
is the rest of the subject. -/
theorem matchLit_sound (p : List Char) :
    ∀ s r, matchLit p s = some r →
      (s.take p.length).map Char.toLower = p.map Char.toLower ∧ r = s.drop p.length := by
  induction p with
  | nil =>
    intro s r h
    simp [matchLit] at h
    simp [h]
  | cons pc pt ih =>
    intro s r h
    cases s with
    | nil => simp [matchLit] at h
    | cons c ct =>
      simp only [matchLit] at h
      by_cases hc : pc.toLower = c.toLower
      · rw [if_pos hc] at h
        obtain ⟨h1, h2⟩ := ih ct r h
        refine ⟨?_, ?_⟩
        · simp [List.take, List.map, h1, hc]
        · simp [List.drop, h2]
      · rw [if_neg hc] at h
        exact absurd h (by simp)

/-- A capture produced by the alternative loop of the name pattern is the
slice of the subject consumed by one of the alternatives. -/
theorem tryAltsName_sound (ss r1 : List Char) :
    ∀ alts cap, tryAltsName r1 ss alts = some cap →
      ∃ a ∈ alts, ∃ r2, matchLit a r1 = some r2 ∧ cap = r1.take a.length := by
  intro alts
  induction alts with
  | nil =>
    intro cap h
    simp [tryAltsName] at h
  | cons a rest ih =>
    intro cap h
    simp only [tryAltsName] at h
    cases hm : matchLit a r1 with
    | some r2 =>
      simp only [hm] at h
      split at h
      · exact ⟨a, by simp, r2, hm, by simpa using h.symm⟩
      · obtain ⟨a2, ha2, hrest⟩ := ih cap h
        exact ⟨a2, by simp [ha2], hrest⟩
    | none =>
      simp only [hm] at h
      obtain ⟨a2, ha2, hrest⟩ := ih cap h
      exact ⟨a2, by simp [ha2], hrest⟩

/-- A capture produced by the leftmost scan of the name pattern is the
slice of some tail of the subject consumed by one of the alternatives. -/
theorem scanName_sound (sep ss : List Char) (alts : List (List Char)) :
    ∀ s cap, scanName sep ss alts s = some cap →
      ∃ a ∈ alts, ∃ r1 r2, matchLit a r1 = some r2 ∧ cap = r1.take a.length := by
  intro s
  induction s with
  | nil =>
    intro cap h
    simp only [scanName] at h
    cases hm : matchLit sep [] with
    | some r1 =>
      simp only [hm] at h
      obtain ⟨a, ha, r2, hm2, hcap⟩ := tryAltsName_sound ss r1 alts cap h
      exact ⟨a, ha, r1, r2, hm2, hcap⟩
    | none =>
      simp only [hm] at h
      simp at h
  | cons c t ih =>
    intro cap h
    simp only [scanName] at h
    cases hm : matchLit sep (c :: t) with
    | some r1 =>
      simp only [hm] at h
      cases htry : tryAltsName r1 ss alts with
      | some cap2 =>
        simp only [htry] at h
        obtain ⟨a, ha, r2, hm2, hcap⟩ := tryAltsName_sound ss r1 alts cap2 htry
        exact ⟨a, ha, r1, r2, hm2, by simp_all⟩
      | none =>
        simp only [htry] at h
        exact ih cap h
    | none =>
      simp only [hm] at h
      exact ih cap h

/-- A capture produced by the alternative loop of the path pattern is the
slice of the subject consumed by one of the alternatives. -/
theorem tryAltsPath_sound (r1 : List Char) :
    ∀ alts cap, tryAltsPath r1 alts = some cap →
      ∃ a ∈ alts, ∃ r2, matchLit a r1 = some r2 ∧ cap = r1.take a.length := by
  intro alts
  induction alts with
  | nil =>
    intro cap h
    simp [tryAltsPath] at h
  | cons a rest ih =>
    intro cap h
    simp only [tryAltsPath] at h
    cases hm : matchLit a r1 with
    | some r2 =>
      simp only [hm] at h
      split at h
      · exact ⟨a, by simp, r2, hm, by simpa using h.symm⟩
      · obtain ⟨a2, ha2, hrest⟩ := ih cap h
        exact ⟨a2, by simp [ha2], hrest⟩
    | none =>
      simp only [hm] at h
      obtain ⟨a2, ha2, hrest⟩ := ih cap h
      exact ⟨a2, by simp [ha2], hrest⟩

/-- A capture produced by the anchored path pattern is the slice of the
subject after the leading slash consumed by one of the alternatives. -/
theorem matchPath_sound (alts : List (List Char)) (s cap : List Char)
    (h : matchPath alts s = some cap) :
    ∃ a ∈ alts, ∃ r1 r2, matchLit a r1 = some r2 ∧ cap = r1.take a.length := by
  unfold matchPath at h
  cases hm : matchLit ['/'] s with
  | some r1 =>
    simp only [hm] at h
    obtain ⟨a, ha, r2, hm2, hcap⟩ := tryAltsPath_sound r1 alts cap h
    exact ⟨a, ha, r1, r2, hm2, hcap⟩
  | none =>
    simp only [hm] at h
    simp at h

/-- Property access on a value that is neither undefined nor null never
throws and yields getProp. -/
theorem jsGetField_ok (v : JsVal) (k : String) (h : notNullish v = true) :
    jsGetField v k = .ok (getProp v k) := by
  cases v with
  | undefined => simp [notNullish] at h
  | null => simp [notNullish] at h
  | bool b => rfl
  | str s => rfl
  | obj fs => rfl

/-- A locale list entry of the data model is neither undefined nor
null. -/
theorem notNullish_of_strOrObj (v : JsVal) (h : strOrObjVal v = true) :
    notNullish v = true := by
  cases v <;> simp_all [strOrObjVal, notNullish]

/-- Over a list with no undefined or null elements, the monadic map to the
code fields succeeds and is the plain map. -/
theorem mapCodeEx_ok (ls : List JsVal) (h : ∀ l ∈ ls, notNullish l = true) :
    mapCodeEx ls = .ok (ls.map fun l => getProp l "code") := by
  induction ls with
  | nil => rfl
  | cons l t ih =>
    have h1 := h l (by simp)
    have ht : ∀ x ∈ t, notNullish x = true := fun x hx => h x (by simp [hx])
    simp [mapCodeEx, jsGetField_ok l "code" h1, ih ht]

/-- Over a list with no undefined or null elements, the monadic search for
a matching domain succeeds and is the plain first-match search. -/
theorem findDomain_ok (hostname : JsVal) (ls : List JsVal)
    (h : ∀ l ∈ ls, notNullish l = true) :
    findDomain hostname ls
      = .ok (ls.find? fun l => jsStrictEq (getProp l "domain") hostname) := by
  induction ls with
  | nil => rfl
  | cons l t ih =>
    have h1 := h l (by simp)
    have ht : ∀ x ∈ t, notNullish x = true := fun x hx => h x (by simp [hx])
    simp only [findDomain, jsGetField_ok l "domain" h1]
    cases hp : jsStrictEq (getProp l "domain") hostname <;>
      simp [List.find?, hp, ih ht]

/-- Reduction of getPageOptions once the locale codes and the lookup key
are known: only the stored page entry decides the shape of the result. -/
theorem getPageOptions_reduce (route : Option Route) (pages : List (String × JsVal))
    (locales : List JsVal) (pagesDir defaultLocale : String) (codes : List JsVal)
    (key : JsVal) (hcodes : getLocaleCodes locales = .ok codes)
    (hkey : chunkKeyOf route pagesDir = .ok key) :
    getPageOptions route (some pages) locales pagesDir defaultLocale =
      (if isFalseVal (getProp (.obj pages) (toPropertyKey key)) then .ok .disabled
       else if !(jsTruthy (getProp (.obj pages) (toPropertyKey key))) then
         .ok (.options codes [])
       else
         .ok (.options
           (codes.filter fun l =>
             !(isFalseVal (getProp (getProp (.obj pages) (toPropertyKey key))
               (toPropertyKey l))))
           (buildPaths (getProp (.obj pages) (toPropertyKey key)) defaultLocale
             (codes.filter fun l =>
               !(isFalseVal (getProp (getProp (.obj pages) (toPropertyKey key))
                 (toPropertyKey l))))))) := by
  unfold getPageOptions
  simp only [hcodes, hkey]

/-- C2 counterexample: getPageOptions does not degrade on an absent route
descriptor.  Called with an undefined route (and otherwise well-formed
arguments) it throws a TypeError, because line 41 of utils.js reads
route.chunkName without a parameter default, refuting the claim that no
exported function throws for absent input. -/
theorem getPageOptions_throws_on_absent_route :
    getPageOptions none (some [("about", .bool false)]) [.str "en"] "pages" "en"
      = .error .typeError := rfl

/-- C2 (amended): getLocaleCodes and getLocaleFromRoute have parameter
defaults and complete without throwing when called with their arguments
absent, degrading to an empty list and null; getPageOptions has no
parameter defaults and throws a TypeError whenever its route descriptor or
its page-options map is absent, whatever the other arguments are. -/
theorem extractors_throw_discipline :
    getLocaleCodes [] = .ok [] ∧
    getLocaleFromRoute none "" "" [] = .ok .null ∧
    (∀ (pages : Option (List (String × JsVal))) (locales : List JsVal)
        (pagesDir dl : String),
      getPageOptions none pages locales pagesDir dl = .error .typeError) ∧
    (∀ (route : Route) (locales : List JsVal) (pagesDir dl : String),
      getPageOptions (some route) none locales pagesDir dl = .error .typeError) := by
  refine ⟨rfl, rfl, ?_, ?_⟩
  · intro pages locales pagesDir dl
    unfold getPageOptions
    cases h : getLocaleCodes locales with
    | error e => cases e; simp [h]
    | ok codes => simp [h, chunkKeyOf]
  · intro route locales pagesDir dl
    unfold getPageOptions
    cases h : getLocaleCodes locales with
    | error e => cases e; simp [h]
    | ok codes =>
      cases h2 : chunkKeyOf (some route) pagesDir with
      | error e => cases e; simp [h, h2]
      | ok key => simp [h, h2]

/-- C6: getLocaleCodes on a locale list of the data model (every element a
string or a record): the empty list yields the empty list; a string first
element returns the whole list unchanged; a record first element whose
code field is a string maps every element to its code field in order; a
record first element whose code field is not a string yields the empty
list, as on the list holding only a record with just a domain field. -/
theorem getLocaleCodes_spec (locales : List JsVal)
    (hwf : ∀ l ∈ locales, strOrObjVal l = true) :
    (locales = [] → getLocaleCodes locales = .ok []) ∧
    (∀ s t, locales = .str s :: t → getLocaleCodes locales = .ok locales) ∧
    (∀ fs t, locales = .obj fs :: t →
      isStrVal (getProp (.obj fs) "code") = true →
      getLocaleCodes locales = .ok (locales.map fun l => getProp l "code")) ∧
    (∀ fs t, locales = .obj fs :: t →
      isStrVal (getProp (.obj fs) "code") = false →
      getLocaleCodes locales = .ok []) ∧
    getLocaleCodes [.obj [("domain", .str "x")]] = .ok [] := by
  refine ⟨?_, ?_, ?_, ?_, rfl⟩
  · intro h
    subst h
    rfl
  · intro s t h
    subst h
    rfl
  · intro fs t h hstr
    subst h
    have hnn : ∀ l ∈ JsVal.obj fs :: t, notNullish l = true :=
      fun l hl => notNullish_of_strOrObj l (hwf l hl)
    cases hc : getProp (.obj fs) "code" with
    | str cs =>
      simp only [getLocaleCodes, jsGetField, hc]
      exact mapCodeEx_ok _ hnn
    | undefined => simp [isStrVal, hc] at hstr
    | null => simp [isStrVal, hc] at hstr
    | bool b => simp [isStrVal, hc] at hstr
    | obj fs2 => simp [isStrVal, hc] at hstr
  · intro fs t h hstr
    subst h
    cases hc : getProp (.obj fs) "code" with
    | str cs => simp [isStrVal, hc] at hstr
    | undefined => simp [getLocaleCodes, jsGetField, hc]
    | null => simp [getLocaleCodes, jsGetField, hc]
    | bool b => simp [getLocaleCodes, jsGetField, hc]
    | obj fs2 => simp [getLocaleCodes, jsGetField, hc]

/-- Witness for C6 at concrete inputs: the record list with code fields en
and fr maps to the codes, applying the third branch of the theorem. -/
theorem getLocaleCodes_spec_witness :
    getLocaleCodes [.obj [("code", .str "en")], .obj [("code", .str "fr")]]
      = .ok [.str "en", .str "fr"] := by
  have hwf : ∀ l ∈ [JsVal.obj [("code", JsVal.str "en")],
      JsVal.obj [("code", JsVal.str "fr")]], strOrObjVal l = true := by
    intro l hl
    simp only [List.mem_cons, List.not_mem_nil, or_false] at hl
    rcases hl with rfl | rfl <;> rfl
  have h := (getLocaleCodes_spec _ hwf).2.2.1 [("code", .str "en")]
    [.obj [("code", .str "fr")]] rfl rfl
  simpa using h

/-- C7: once the locale codes and the page lookup key are computed, a
stored entry that is exactly false short-circuits getPageOptions to false,
and a missing entry (undefined) yields all extracted codes with an empty
paths object. -/
theorem getPageOptions_disabled_or_missing (route : Option Route)
    (pages : List (String × JsVal)) (locales : List JsVal) (pagesDir dl : String)
    (codes : List JsVal) (key : JsVal)
    (hcodes : getLocaleCodes locales = .ok codes)
    (hkey : chunkKeyOf route pagesDir = .ok key) :
    (getProp (.obj pages) (toPropertyKey key) = .bool false →
      getPageOptions route (some pages) locales pagesDir dl = .ok .disabled) ∧
    (getProp (.obj pages) (toPropertyKey key) = .undefined →
      getPageOptions route (some pages) locales pagesDir dl
        = .ok (.options codes [])) := by
  constructor
  · intro hpo
    rw [getPageOptions_reduce route pages locales pagesDir dl codes key hcodes hkey]
    simp [hpo, isFalseVal]
  · intro hpo
    rw [getPageOptions_reduce route pages locales pagesDir dl codes key hcodes hkey]
    simp [hpo, isFalseVal, jsTruthy]

/-- Witness for C7 at concrete inputs: the about page is disabled by a
false entry, and a route with no entry keeps both locales and no paths. -/
theorem getPageOptions_disabled_or_missing_witness :
    getPageOptions (some ⟨.str "about", .undefined, .undefined⟩)
      (some [("about", .bool false)]) [.str "en", .str "fr"] "pages" "en"
      = .ok .disabled ∧
    getPageOptions (some ⟨.str "other", .undefined, .undefined⟩)
      (some [("about", .bool false)]) [.str "en", .str "fr"] "pages" "en"
      = .ok (.options [.str "en", .str "fr"] []) := by
  constructor
  · exact (getPageOptions_disabled_or_missing
      (some ⟨.str "about", .undefined, .undefined⟩) [("about", .bool false)]
      [.str "en", .str "fr"] "pages" "en" [.str "en", .str "fr"] (.str "about")
      rfl rfl).1 rfl
  · exact (getPageOptions_disabled_or_missing
      (some ⟨.str "other", .undefined, .undefined⟩) [("about", .bool false)]
      [.str "en", .str "fr"] "pages" "en" [.str "en", .str "fr"] (.str "other")
      rfl rfl).2 rfl

/-- The per-locale path rule as the specification words it (section 4.2):
for a remaining locale, if its per-page entry is a string use it as the
custom path, else if the entry of the default locale is a string use that
as a fallback custom path, else omit a path entry. -/
def specPathFor (entry : JsVal) (defaultLocale : String) (k : String) : Option String :=
  match getProp entry k with
  | .str s => some s
  | _ =>
    match getProp entry defaultLocale with
    | .str d => some d
    | _ => none

/-- C1: when the stored page entry is an object, getPageOptions keeps
exactly the extracted codes whose per-page entry is not exactly false, and
the paths object binds a remaining locale according to the specification
rule (own string entry, else string entry of the default locale, else
nothing) and binds no other key; the concrete about example returns the en
locale with its custom path. -/
theorem getPageOptions_object_entry (route : Option Route)
    (pages : List (String × JsVal)) (locales : List JsVal) (pagesDir dl : String)
    (codes : List JsVal) (key : JsVal) (fs : List (String × JsVal))
    (hcodes : getLocaleCodes locales = .ok codes)
    (hkey : chunkKeyOf route pagesDir = .ok key)
    (hentry : getProp (.obj pages) (toPropertyKey key) = .obj fs) :
    (getPageOptions route (some pages) locales pagesDir dl =
      .ok (.options
        (codes.filter fun l => !(isFalseVal (getProp (.obj fs) (toPropertyKey l))))
        (buildPaths (.obj fs) dl
          (codes.filter fun l => !(isFalseVal (getProp (.obj fs) (toPropertyKey l))))))) ∧
    (∀ s : String,
      lookupStr (buildPaths (.obj fs) dl
        (codes.filter fun l => !(isFalseVal (getProp (.obj fs) (toPropertyKey l))))) s =
      if (codes.filter fun l => !(isFalseVal (getProp (.obj fs) (toPropertyKey l)))).any
          (fun l => toPropertyKey l == s)
      then specPathFor (.obj fs) dl s
      else none) ∧
    getPageOptions (some ⟨.str "about", .undefined, .undefined⟩)
      (some [("about", .obj [("en", .str "/about-us"), ("fr", .bool false)])])
      [.str "en", .str "fr"] "pages" "en"
      = .ok (.options [.str "en"] [("en", "/about-us")]) := by
  refine ⟨?_, ?_, rfl⟩
  · rw [getPageOptions_reduce route pages locales pagesDir dl codes key hcodes hkey]
    simp [hentry, isFalseVal, jsTruthy]
  · intro s
    rw [buildPaths_lookup]
    rfl

/-- Witness for C1 at concrete inputs, applying the theorem to the about
page with locales en and fr and reading the result and the paths lookup
for en. -/
theorem getPageOptions_object_entry_witness :
    getPageOptions (some ⟨.str "about", .undefined, .undefined⟩)
      (some [("about", .obj [("en", .str "/about-us"), ("fr", .bool false)])])
      [.str "en", .str "fr"] "pages" "en"
      = .ok (.options [.str "en"] [("en", "/about-us")]) :=
  (getPageOptions_object_entry (some ⟨.str "about", .undefined, .undefined⟩)
    [("about", .obj [("en", .str "/about-us"), ("fr", .bool false)])]
    [.str "en", .str "fr"] "pages" "en" [.str "en", .str "fr"] (.str "about")
    [("en", .str "/about-us"), ("fr", .bool false)] rfl rfl rfl).2.2

/-- C3 counterexample: page options mapping about to an object with the en
entry exactly false and the fr entry null, default locale en, locales en
and fr.  The claim says the remaining locale fr silently adopts the custom
path of the default locale; the code instead produces an empty paths
object, because the fallback test requires the entry of the default locale
to be a string and false is not one. -/
theorem getPageOptions_default_false_counterexample :
    getPageOptions (some ⟨.str "about", .undefined, .undefined⟩)
      (some [("about", .obj [("en", .bool false), ("fr", .null)])])
      [.str "en", .str "fr"] "pages" "en"
      = .ok (.options [.str "fr"] []) ∧
    lookupStr ([] : List (String × String)) "fr" = none := ⟨rfl, rfl⟩

/-- C3 (amended): when the per-page entry of the default locale is exactly
false (so the default locale itself is filtered out), a remaining locale
whose own per-page entry is not a string receives no path entry at all:
the fallback applies only when the entry of the default locale is a
string, which false is not. -/
theorem getPageOptions_default_false_no_fallback (route : Option Route)
    (pages : List (String × JsVal)) (locales : List JsVal) (pagesDir dl : String)
    (codes : List JsVal) (key : JsVal) (fs : List (String × JsVal))
    (hcodes : getLocaleCodes locales = .ok codes)
    (hkey : chunkKeyOf route pagesDir = .ok key)
    (hentry : getProp (.obj pages) (toPropertyKey key) = .obj fs)
    (hdl : getProp (.obj fs) dl = .bool false) :
    ∀ locs paths,
      getPageOptions route (some pages) locales pagesDir dl
        = .ok (.options locs paths) →
      ∀ s : String, isStrVal (getProp (.obj fs) s) = false →
        lookupStr paths s = none := by
  intro locs paths hres s hs
  rw [getPageOptions_reduce route pages locales pagesDir dl codes key hcodes hkey]
    at hres
  simp only [hentry, isFalseVal, jsTruthy, Bool.not_true, Bool.false_eq_true,
    if_false, ite_false] at hres
  have hpv : pathVal (.obj fs) dl s = none := by
    unfold pathVal
    cases hv : getProp (.obj fs) s <;> simp_all [isStrVal]
  simp only [Except.ok.injEq, PageOptions.options.injEq] at hres
  obtain ⟨h1, h2⟩ := hres
  subst h2
  rw [buildPaths_lookup, hpv]
  split <;> rfl

/-- Witness for C3 as amended, applying the theorem to the counterexample
input and reading the missing fr path. -/
theorem getPageOptions_default_false_no_fallback_witness :
    lookupStr ([] : List (String × String)) "fr" = none :=
  getPageOptions_default_false_no_fallback (some ⟨.str "about", .undefined, .undefined⟩)
    [("about", .obj [("en", .bool false), ("fr", .null)])]
    [.str "en", .str "fr"] "pages" "en" [.str "en", .str "fr"] (.str "about")
    [("en", .bool false), ("fr", .null)] rfl rfl rfl rfl
    [.str "fr"] [] rfl "fr" rfl

/-- C10: whenever getPageOptions returns an options object, the enabled
locales are an order-preserving subsequence (sublist) of the codes
extracted from the input locale list, and every key of the paths object is
one of the enabled locales. -/
theorem getPageOptions_result_invariant (route : Option Route)
    (pages : Option (List (String × JsVal))) (locales : List JsVal)
    (pagesDir dl : String) (codes locs : List JsVal) (paths : List (String × String))
    (hcodes : getLocaleCodes locales = .ok codes)
    (hstr : ∀ c ∈ codes, isStrVal c = true)
    (hres : getPageOptions route pages locales pagesDir dl
      = .ok (.options locs paths)) :
    List.Sublist locs codes ∧ ∀ p ∈ paths, JsVal.str p.1 ∈ locs := by
  cases pages with
  | none =>
    exfalso
    unfold getPageOptions at hres
    cases hkey : chunkKeyOf route pagesDir <;> simp [hcodes, hkey] at hres
  | some pagesObj =>
    cases hkey : chunkKeyOf route pagesDir with
    | error e =>
      exfalso
      unfold getPageOptions at hres
      simp [hcodes, hkey] at hres
    | ok key =>
      rw [getPageOptions_reduce route pagesObj locales pagesDir dl codes key
        hcodes hkey] at hres
      by_cases hfalse :
          isFalseVal (getProp (.obj pagesObj) (toPropertyKey key)) = true
      · simp [hfalse] at hres
      · by_cases htruthy :
            jsTruthy (getProp (.obj pagesObj) (toPropertyKey key)) = true
        · simp only [hfalse, htruthy, Bool.not_true, if_false, ite_false,
            Bool.false_eq_true, Except.ok.injEq, PageOptions.options.injEq] at hres
          obtain ⟨h1, h2⟩ := hres
          subst h1
          subst h2
          constructor
          · exact List.filter_sublist _
          · intro p hp
            obtain ⟨l, hl, hkeyp⟩ := mem_buildPaths _ _ _ p hp
            have hcl : l ∈ codes := List.mem_of_mem_filter hl
            have hstrl := hstr l hcl
            cases l with
            | str s2 =>
              have : s2 = p.1 := hkeyp
              rw [← this]
              exact hl
            | undefined => simp [isStrVal] at hstrl
            | null => simp [isStrVal] at hstrl
            | bool b => simp [isStrVal] at hstrl
            | obj fs2 => simp [isStrVal] at hstrl
        · have hT : jsTruthy (getProp (.obj pagesObj) (toPropertyKey key)) = false := by
            revert htruthy
            cases jsTruthy (getProp (.obj pagesObj) (toPropertyKey key)) <;> simp
          simp only [hfalse, hT, Bool.not_false, Bool.false_eq_true, if_false,
            ite_false, if_true, ite_true, Except.ok.injEq,
            PageOptions.options.injEq] at hres
          obtain ⟨h1, h2⟩ := hres
          subst h1
          subst h2
          exact ⟨List.Sublist.refl _, by simp⟩

/-- Witness for C10 at concrete inputs: the about example with codes en
and fr, whose result keeps en only and binds only the en path. -/
theorem getPageOptions_result_invariant_witness :
    List.Sublist [JsVal.str "en"] [JsVal.str "en", JsVal.str "fr"] ∧
    ∀ p ∈ [("en", "/about-us")], JsVal.str p.1 ∈ [JsVal.str "en"] := by
  refine getPageOptions_result_invariant (some ⟨.str "about", .undefined, .undefined⟩)
    (some [("about", .obj [("en", .str "/about-us"), ("fr", .bool false)])])
    [.str "en", .str "fr"] "pages" "en" [.str "en", .str "fr"] [.str "en"]
    [("en", "/about-us")] rfl ?_ rfl
  intro c hc
  simp only [List.mem_cons, List.not_mem_nil, or_false] at hc
  rcases hc with rfl | rfl <;> rfl

/-- C5 counterexample: with an empty locale list the capture group is the
group of the empty pattern and can still capture the empty string, so the
function does not always return null.  A route named about- with separator
minus matches the pattern at the trailing separator and returns the empty
string, which is not the null sentinel. -/
theorem getLocaleFromRoute_empty_locales_counterexample :
    getLocaleFromRoute (some ⟨.str "about-", .undefined, .undefined⟩) "-" "default" []
      = .ok (.str "") ∧
    (Except.ok (JsVal.str "") : Except JsErr JsVal) ≠ .ok .null :=
  ⟨rfl, fun h => JsVal.noConfusion (Except.ok.inj h)⟩

/-- C5 (amended): with an empty locale list the alternation degenerates to
the group of the empty pattern, so the capture can only ever be the empty
string: for every route whose name and path fields are strings or falsy
and every separator and suffix, getLocaleFromRoute returns null or the
empty string, never a nonempty locale code. -/
theorem getLocaleFromRoute_empty_locales (route : Option Route) (sep suffix : String)
    (hname : jsTruthy (route.getD ⟨.undefined, .undefined, .undefined⟩).name = false ∨
      isStrVal (route.getD ⟨.undefined, .undefined, .undefined⟩).name = true)
    (hpath : jsTruthy (route.getD ⟨.undefined, .undefined, .undefined⟩).path = false ∨
      isStrVal (route.getD ⟨.undefined, .undefined, .undefined⟩).path = true) :
    getLocaleFromRoute route sep suffix [] = .ok .null ∨
    getLocaleFromRoute route sep suffix [] = .ok (.str "") := by
  unfold getLocaleFromRoute
  simp only [show getLocaleCodes [] = .ok [] from rfl]
  set r := route.getD ⟨.undefined, .undefined, .undefined⟩ with hr
  by_cases hn : jsTruthy r.name = true
  · rcases hname with hf | hs
    · rw [hn] at hf
      exact absurd hf (by simp)
    · cases hnm : r.name with
      | str nm =>
        rw [hnm] at hn
        cases hscan : scanName sep.data (sep ++ suffix).data
            ((altStrings []).map String.data) nm.data with
        | some cap =>
          obtain ⟨a, ha, r1, r2, hm, hcap⟩ :=
            scanName_sound _ _ _ _ _ hscan
          have ha2 : a = [] := by simpa [altStrings] using ha
          subst ha2
          right
          simp only [if_pos hn, hscan, hcap]
          rfl
        | none =>
          left
          simp only [if_pos hn, hscan]
      | undefined => rw [hnm] at hs; exact absurd hs (by simp [isStrVal])
      | null => rw [hnm] at hs; exact absurd hs (by simp [isStrVal])
      | bool b => rw [hnm] at hs; exact absurd hs (by simp [isStrVal])
      | obj fs => rw [hnm] at hs; exact absurd hs (by simp [isStrVal])
  · by_cases hp : jsTruthy r.path = true
    · rcases hpath with hf | hs
      · rw [hp] at hf
        exact absurd hf (by simp)
      · cases hpm : r.path with
        | str p =>
          rw [hpm] at hp
          cases hmatch : matchPath ((altStrings []).map String.data) p.data with
          | some cap =>
            obtain ⟨a, ha, r1, r2, hm, hcap⟩ := matchPath_sound _ _ _ hmatch
            have ha2 : a = [] := by simpa [altStrings] using ha
            subst ha2
            right
            simp only [if_neg hn, if_pos hp, hmatch, hcap]
            rfl
          | none =>
            left
            simp only [if_neg hn, if_pos hp, hmatch]
        | undefined => rw [hpm] at hs; exact absurd hs (by simp [isStrVal])
        | null => rw [hpm] at hs; exact absurd hs (by simp [isStrVal])
        | bool b => rw [hpm] at hs; exact absurd hs (by simp [isStrVal])
        | obj fs => rw [hpm] at hs; exact absurd hs (by simp [isStrVal])
    · left
      simp only [if_neg hn, if_neg hp]

/-- Witness for C5 as amended, applied to the about- route with an empty
locale list. -/
theorem getLocaleFromRoute_empty_locales_witness :
    getLocaleFromRoute (some ⟨.str "about-", .undefined, .undefined⟩) "-" "default" []
        = .ok .null ∨
    getLocaleFromRoute (some ⟨.str "about-", .undefined, .undefined⟩) "-" "default" []
        = .ok (.str "") :=
  getLocaleFromRoute_empty_locales (some ⟨.str "about-", .undefined, .undefined⟩)
    "-" "default" (Or.inr rfl) (Or.inl rfl)

/-- A capture of the name pattern lowers to one of the configured
alternative strings lowered. -/
theorem scanName_capture_alt (sep ss : List Char) (alts0 : List String)
    (s cap : List Char)
    (h : scanName sep ss (alts0.map String.data) s = some cap) :
    ∃ a ∈ alts0, cap.map Char.toLower = a.data.map Char.toLower := by
  obtain ⟨a, ha, r1, r2, hm, hcap⟩ := scanName_sound _ _ _ _ _ h
  obtain ⟨a0, ha0, rfl⟩ := List.mem_map.mp ha
  refine ⟨a0, ha0, ?_⟩
  rw [hcap]
  exact (matchLit_sound _ _ _ hm).1

/-- A capture of the path pattern lowers to one of the configured
alternative strings lowered. -/
theorem matchPath_capture_alt (alts0 : List String) (s cap : List Char)
    (h : matchPath (alts0.map String.data) s = some cap) :
    ∃ a ∈ alts0, cap.map Char.toLower = a.data.map Char.toLower := by
  obtain ⟨a, ha, r1, r2, hm, hcap⟩ := matchPath_sound _ _ _ h
  obtain ⟨a0, ha0, rfl⟩ := List.mem_map.mp ha
  refine ⟨a0, ha0, ?_⟩
  rw [hcap]
  exact (matchLit_sound _ _ _ hm).1

/-- C4: the route-locale extractor on the concrete cases of the
specification (name about-fr gives fr, name about-en-default gives en,
path /fr/about gives fr), together with: a route whose name and path are
both falsy yields null whenever the code extraction succeeds, and any
returned capture is, up to lowercasing, one of the alternatives built from
the extracted codes. -/
theorem getLocaleFromRoute_spec :
    getLocaleFromRoute (some ⟨.str "about-fr", .undefined, .undefined⟩) "-" "default"
      [.str "en", .str "fr"] = .ok (.str "fr") ∧
    getLocaleFromRoute (some ⟨.str "about-en-default", .undefined, .undefined⟩) "-"
      "default" [.str "en", .str "fr"] = .ok (.str "en") ∧
    getLocaleFromRoute (some ⟨.undefined, .str "/fr/about", .undefined⟩) "-" "default"
      [.str "en", .str "fr"] = .ok (.str "fr") ∧
    (∀ (sep suffix : String) (locales codes : List JsVal) (r : Route),
      getLocaleCodes locales = .ok codes →
      jsTruthy r.name = false → jsTruthy r.path = false →
      getLocaleFromRoute (some r) sep suffix locales = .ok .null) ∧
    (∀ (route : Option Route) (sep suffix : String) (locales codes : List JsVal)
        (cap : String),
      getLocaleCodes locales = .ok codes →
      getLocaleFromRoute route sep suffix locales = .ok (.str cap) →
      ∃ a ∈ altStrings codes,
        cap.data.map Char.toLower = a.data.map Char.toLower) := by
  refine ⟨rfl, rfl, rfl, ?_, ?_⟩
  · intro sep suffix locales codes r hcodes hn hp
    unfold getLocaleFromRoute
    simp [hcodes, hn, hp]
  · intro route sep suffix locales codes cap hcodes hres
    unfold getLocaleFromRoute at hres
    simp only [hcodes] at hres
    set r := route.getD ⟨.undefined, .undefined, .undefined⟩ with hr
    by_cases hn : jsTruthy r.name = true
    · cases hnm : r.name with
      | str nm =>
        rw [hnm] at hn
        simp only [hnm, if_pos hn] at hres
        cases hscan : scanName sep.data (sep ++ suffix).data
            ((altStrings codes).map String.data) nm.data with
        | some capL =>
          simp only [hscan] at hres
          have hcapeq : String.mk capL = cap := JsVal.str.inj (Except.ok.inj hres)
          obtain ⟨a0, ha0, hlow⟩ := scanName_capture_alt _ _ _ _ _ hscan
          refine ⟨a0, ha0, ?_⟩
          rw [← hcapeq]
          exact hlow
        | none =>
          simp only [hscan] at hres
          exact absurd hres (by simp)
      | undefined => rw [hnm] at hn; simp [jsTruthy] at hn
      | null => rw [hnm] at hn; simp [jsTruthy] at hn
      | bool b =>
        rw [hnm] at hn
        simp only [hnm, if_pos hn] at hres
        exact absurd hres (by simp)
      | obj fs =>
        rw [hnm] at hn
        simp only [hnm, if_pos hn] at hres
        exact absurd hres (by simp)
    · by_cases hp : jsTruthy r.path = true
      · cases hpm : r.path with
        | str p =>
          rw [hpm] at hp
          simp only [hpm, if_neg hn, if_pos hp] at hres
          cases hmatch : matchPath ((altStrings codes).map String.data) p.data with
          | some capL =>
            simp only [hmatch] at hres
            have hcapeq : String.mk capL = cap := JsVal.str.inj (Except.ok.inj hres)
            obtain ⟨a0, ha0, hlow⟩ := matchPath_capture_alt _ _ _ hmatch
            refine ⟨a0, ha0, ?_⟩
            rw [← hcapeq]
            exact hlow
          | none =>
            simp only [hmatch] at hres
            exact absurd hres (by simp)
        | undefined => rw [hpm] at hp; simp [jsTruthy] at hp
        | null => rw [hpm] at hp; simp [jsTruthy] at hp
        | bool b =>
          rw [hpm] at hp
          simp only [hpm, if_neg hn, if_pos hp] at hres
          exact absurd hres (by simp)
        | obj fs =>
          rw [hpm] at hp
          simp only [hpm, if_neg hn, if_pos hp] at hres
          exact absurd hres (by simp)
      · simp only [if_neg hn, if_neg hp] at hres
        exact absurd hres (by simp)

/-- Witness for C4, applying the null branch of the theorem to a route
with neither name nor path and locales en and fr. -/
theorem getLocaleFromRoute_spec_witness :
    getLocaleFromRoute (some ⟨.undefined, .undefined, .undefined⟩) "-" "default"
      [.str "en", .str "fr"] = .ok .null :=
  getLocaleFromRoute_spec.2.2.2.1 "-" "default" [.str "en", .str "fr"]
    [.str "en", .str "fr"] ⟨.undefined, .undefined, .undefined⟩ rfl rfl rfl

/-- C8: the store synchronizer issues at most the setLocale and setMessages
dispatches, in that fixed order (the issued action names are a sublist of
the two-element name list); a dispatch is issued only when its value is
non-null and its sync flag enabled; a rejection of the first dispatch
propagates unmodified and the second dispatch is never attempted; with
both sync flags disabled nothing is dispatched and the call resolves; and
nothing is dispatched without both the vuex configuration and the
store. -/
theorem syncVuex_dispatch_discipline (ε : Type) (v : VuexCfg)
    (dispatch : String → JsVal → Except ε Unit) (locale messages : JsVal) :
    (((syncVuex ε (some v) true dispatch locale messages).1.map Prod.fst).Sublist
      [v.moduleName ++ "/setLocale", v.moduleName ++ "/setMessages"]) ∧
    ((!(isNullVal (argOrNull locale)) && v.syncLocale) = false →
      (!(isNullVal (argOrNull messages)) && v.syncMessages) = false →
      syncVuex ε (some v) true dispatch locale messages = ([], none)) ∧
    (∀ e, (!(isNullVal (argOrNull locale)) && v.syncLocale) = true →
      dispatch (v.moduleName ++ "/setLocale") (argOrNull locale) = .error e →
      syncVuex ε (some v) true dispatch locale messages
        = ([(v.moduleName ++ "/setLocale", argOrNull locale)], some e)) ∧
    ((!(isNullVal (argOrNull locale)) && v.syncLocale) = true →
      dispatch (v.moduleName ++ "/setLocale") (argOrNull locale) = .ok () →
      (!(isNullVal (argOrNull messages)) && v.syncMessages) = true →
      syncVuex ε (some v) true dispatch locale messages
        = ([(v.moduleName ++ "/setLocale", argOrNull locale),
            (v.moduleName ++ "/setMessages", argOrNull messages)],
           match dispatch (v.moduleName ++ "/setMessages") (argOrNull messages) with
           | .error e => some e
           | .ok _ => none)) ∧
    (v.syncLocale = false → v.syncMessages = false →
      syncVuex ε (some v) true dispatch locale messages = ([], none)) ∧
    (∀ (vx : Option VuexCfg) (d : String → JsVal → Except ε Unit) (lc ms : JsVal),
      syncVuex ε vx false d lc ms = ([], none)) ∧
    (∀ (d : String → JsVal → Except ε Unit) (lc ms : JsVal),
      syncVuex ε none true d lc ms = ([], none)) := by
  refine ⟨?_, ?_, ?_, ?_, ?_, fun vx d lc ms => by cases vx <;> rfl,
    fun d lc ms => rfl⟩
  · unfold syncVuex
    by_cases hwl : (!(isNullVal (argOrNull locale)) && v.syncLocale) = true
    · simp only [hwl, if_true]
      cases hd : dispatch (v.moduleName ++ "/setLocale") (argOrNull locale) with
      | error e =>
        simp only [List.map_cons, List.map_nil]
        exact List.Sublist.cons₂ _ (List.nil_sublist _)
      | ok u =>
        by_cases hwm : (!(isNullVal (argOrNull messages)) && v.syncMessages) = true
        · simp only [hwm, if_true]
          cases hd2 : dispatch (v.moduleName ++ "/setMessages") (argOrNull messages) with
          | error e =>
            simp only [List.map_cons, List.map_nil]
            exact List.Sublist.refl _
          | ok u2 =>
            simp only [List.map_cons, List.map_nil]
            exact List.Sublist.refl _
        · simp only [hwm, if_false, Bool.false_eq_true, ite_false,
            List.map_cons, List.map_nil]
          exact List.Sublist.cons₂ _ (List.nil_sublist _)
    · simp only [hwl, if_false, Bool.false_eq_true, ite_false]
      by_cases hwm : (!(isNullVal (argOrNull messages)) && v.syncMessages) = true
      · simp only [hwm, if_true]
        cases hd2 : dispatch (v.moduleName ++ "/setMessages") (argOrNull messages) with
        | error e =>
          simp only [List.map_cons, List.map_nil]
          exact List.Sublist.cons _ (List.Sublist.refl _)
        | ok u2 =>
          simp only [List.map_cons, List.map_nil]
          exact List.Sublist.cons _ (List.Sublist.refl _)
      · simp only [hwm, if_false, Bool.false_eq_true, ite_false, List.map_nil]
        exact List.nil_sublist _
  · intro hwl hwm
    unfold syncVuex
    simp [hwl, hwm]
  · intro e hwl hd
    unfold syncVuex
    simp [hwl, hd]
  · intro hwl hd hwm
    unfold syncVuex
    simp only [hwl, if_true, hd, hwm]
    cases hd2 : dispatch (v.moduleName ++ "/setMessages") (argOrNull messages) <;>
      simp [hd2]
  · intro hL hM
    unfold syncVuex
    simp [hL, hM]

/-- Witness for C8: a dispatcher that rejects the setLocale action; the
synchronizer propagates the rejection and never reaches setMessages. -/
theorem syncVuex_dispatch_discipline_witness :
    syncVuex String (some ⟨"i18n", true, true⟩) true
      (fun n _ => if n = "i18n/setLocale" then .error "boom" else .ok ())
      (.str "fr") (.obj [])
      = ([("i18n/setLocale", .str "fr")], some "boom") :=
  (syncVuex_dispatch_discipline String ⟨"i18n", true, true⟩
    (fun n _ => if n = "i18n/setLocale" then .error "boom" else .ok ())
    (.str "fr") (.obj [])).2.2.1 "boom" rfl (by simp)

/-- C9: with the hostname chosen by the forwarded-host setting (getForwarded
when enabled, getHostname otherwise), getLocaleDomain returns null when the
hostname is falsy or no configured record has a domain equal to it, and
the code field of the first record whose domain equals the hostname
otherwise.  The locale records are the shapes of the data model, so the
property accesses in the search cannot throw. -/
theorem getLocaleDomain_spec (c : Ctx)
    (hwf : ∀ l ∈ c.locales, notNullish l = true) :
    (jsTruthy (if c.forwardedHost then getForwarded c else getHostname c) = false →
      getLocaleDomain c = .ok .null) ∧
    ((c.locales.find? fun l => jsStrictEq (getProp l "domain")
        (if c.forwardedHost then getForwarded c else getHostname c)) = none →
      getLocaleDomain c = .ok .null) ∧
    (∀ l, jsTruthy (if c.forwardedHost then getForwarded c else getHostname c)
        = true →
      (c.locales.find? fun x => jsStrictEq (getProp x "domain")
        (if c.forwardedHost then getForwarded c else getHostname c)) = some l →
      getLocaleDomain c = .ok (getProp l "code")) := by
  refine ⟨?_, ?_, ?_⟩
  · intro h
    unfold getLocaleDomain
    simp [h]
  · intro hf
    unfold getLocaleDomain
    by_cases ht : jsTruthy (if c.forwardedHost then getForwarded c
        else getHostname c) = true
    · simp only [ht, if_true, findDomain_ok _ _ hwf, hf]
    · simp [ht]
  · intro l ht hf
    unfold getLocaleDomain
    have hl : l ∈ c.locales := List.mem_of_find?_eq_some hf
    simp only [ht, if_true, findDomain_ok _ _ hwf, hf,
      jsGetField_ok l "code" (hwf l hl)]

/-- Witness for C9: the server context with host fr.example.com finds the
fr record and returns its code. -/
theorem getLocaleDomain_spec_witness :
    getLocaleDomain
      ⟨false, "", .undefined, .str "fr.example.com", false,
        [.obj [("code", .str "en"), ("domain", .str "en.example.com")],
         .obj [("code", .str "fr"), ("domain", .str "fr.example.com")]]⟩
      = .ok (.str "fr") := by
  have hwf : ∀ l ∈ [JsVal.obj [("code", JsVal.str "en"),
      ("domain", JsVal.str "en.example.com")],
      JsVal.obj [("code", JsVal.str "fr"),
      ("domain", JsVal.str "fr.example.com")]], notNullish l = true := by
    intro l hl
    simp only [List.mem_cons, List.not_mem_nil, or_false] at hl
    rcases hl with rfl | rfl <;> rfl
  exact (getLocaleDomain_spec _ hwf).2.2
    (.obj [("code", .str "fr"), ("domain", .str "fr.example.com")]) rfl rfl
